import Mathlib

/-!
Verification of the persistent copy-on-write binary search tree of
`dbdb-rust` (files `src/logical_tree.rs`, `src/storage.rs`,
`src/serde_interface.rs`) against its natural-language specification.

The development shallowly embeds the program at three levels.

1. A pure in-memory view of the BST (`Tree` with `find`, `insert`,
   `delmin`, `delete`): `BinaryTree::_find`, `_insert`, `_delmin` and
   `_delete` interact with the storage only through `Agent::get` /
   `Agent::get_mut`, which read (never write) the file, so on reachable
   states their behaviour factors through the fully loaded view of the
   agent graph.  Keys are Rust `String`s compared with `Ord::cmp`
   (lexicographic byte order on UTF-8, which coincides with the
   code-point order used by Lean's `String` linear order).

2. An agent-level model (`VAgent`, `NAgent`, `StoreSt`) of
   `StringAgent`, `TreeNodeAgent` and the record-granular contents of
   the append-only data region, including the store (persist) pass and
   the transaction facade `LogicalTree` (`DB`, `begin`, `commit`,
   `put`, `del`).  Addresses are modelled as `SUPERBLOCK + index` of
   the record in the append sequence; the source's byte offsets are a
   strictly monotone function of that index, so ordering and
   "already written" facts transfer verbatim.  Write failures of the
   underlying file are modelled by a fault list consumed one entry per
   write, mirroring the `?` early returns of the Rust code.

3. A byte-level model of the superblock handling of `FileStorage`
   (`ensureSuperblock`, `encodeMeta`), with the bincode legacy
   encoding of `Meta { root_addr: Option<u64> }` (an external crate:
   one tag byte, then eight little-endian bytes when present).
-/

namespace Dbdb

/-! ### Pure in-memory view of the tree (`logical_tree.rs`, `BinaryTree`) -/

/-- Fully loaded view of a (sub)tree of node agents.  `leaf` stands for an
absent child link (`Option::None`); a `node` carries `key`, the value held
by its value agent, the cached subtree `size`, and the two children
(`TreeNode { key, size, value_agent, left_agent, right_agent }`). -/
inductive Tree where
  | leaf : Tree
  | node (key : String) (value : String) (size : Nat) (left : Tree) (right : Tree) : Tree
deriving DecidableEq, Repr

/-- Three-way comparison `key.cmp(&node.key)` of Rust `String`s:
`Ordering::Less` iff `a < b`, `Equal` iff `a = b`, `Greater` otherwise.
Rust compares the UTF-8 bytes lexicographically, which coincides with
lexicographic order on the code points, i.e. on `String.data`. -/
def keyCmp (a b : String) : Ordering :=
  if a.data < b.data then .lt else if a = b then .eq else .gt

/-- `BinaryTree::_find` followed by reading the value string out of the
returned value agent (`BinaryTree::find`). -/
def find (key : String) : Tree → Option String
  | .leaf => none
  | .node k v _ l r =>
    match keyCmp key k with
    | .lt => find key l
    | .gt => find key r
    | .eq => some v

/-- `BinaryTree::_insert`: returns the freshly wrapped node and the size
delta to add to ancestor sizes. -/
def insert (key value : String) : Tree → Tree × Nat
  | .leaf => (.node key value 1 .leaf .leaf, 1)
  | .node k v sz l r =>
    match keyCmp key k with
    | .lt =>
      let res := insert key value l
      (.node k v (sz + res.2) res.1 r, res.2)
    | .gt =>
      let res := insert key value r
      (.node k v (sz + res.2) l res.1, res.2)
    | .eq => (.node k value sz l r, 0)

/-- `BinaryTree::_delmin`: returns `(modified_node, replacement_node)`.
When the left child is absent the original node (size untouched) is the
replacement and the right child is the modified subtree; otherwise the
node is rebuilt with size decremented and the recursively modified left
child. -/
def delmin : Tree → Tree × Option Tree
  | .leaf => (.leaf, none)
  | .node k v sz .leaf r => (r, some (.node k v sz .leaf r))
  | .node k v sz (.node lk lv lsz ll lr) r =>
    let res := delmin (.node lk lv lsz ll lr)
    (.node k v (sz - 1) res.1 r, res.2)

/-- `BinaryTree::_delete`. -/
def delete (key : String) : Tree → Tree
  | .leaf => .leaf
  | .node k v sz l r =>
    match keyCmp key k with
    | .lt => .node k v (sz - 1) (delete key l) r
    | .gt => .node k v (sz - 1) l (delete key r)
    | .eq =>
      match l, r with
      | .node lk lv lsz ll lr, .node rk0 rv0 rsz0 rl0 rr0 =>
        let res := delmin (.node rk0 rv0 rsz0 rl0 rr0)
        match res.2 with
        | some (.node rk rv _ _ _) =>
          .node rk rv (sz - 1) (.node lk lv lsz ll lr) res.1
        | _ => .node k v (sz - 1) (.node lk lv lsz ll lr) (.node rk0 rv0 rsz0 rl0 rr0)
      | .node lk lv lsz ll lr, .leaf => .node lk lv lsz ll lr
      | _, _ => r

/-- `BinaryTree::delete`: `_find` first; if the key is absent the root is
left unchanged, otherwise `_delete` runs. -/
def treeDelete (key : String) (t : Tree) : Tree :=
  if (find key t).isSome then delete key t else t

/-- Keys stored in a subtree. -/
def keys : Tree → List String
  | .leaf => []
  | .node k _ _ l r => k :: (keys l ++ keys r)

/-- Number of nodes of a subtree (ground truth for the `size` field). -/
def count : Tree → Nat
  | .leaf => 0
  | .node _ _ _ l r => 1 + count l + count r

/-- Binary-search-tree ordering invariant. -/
def isBST : Tree → Bool
  | .leaf => true
  | .node k _ _ l r =>
    ((keys l).all fun x => decide (x.data < k.data)) &&
    (((keys r).all fun x => decide (k.data < x.data)) && (isBST l && isBST r))

/-- `size(n) = 1 + size(n.left) + size(n.right)` at every node. -/
def sizeOk : Tree → Bool
  | .leaf => true
  | .node _ _ sz l r => (sz == 1 + count l + count r) && (sizeOk l && sizeOk r)

/-- The `size` fields of all nodes, in preorder. -/
def sizesList : Tree → List Nat
  | .leaf => []
  | .node _ _ sz l r => sz :: (sizesList l ++ sizesList r)

/-! #### Comparison lemmas -/

theorem string_data_inj {a b : String} : a.data = b.data ↔ a = b :=
  ⟨fun h => by cases a; cases b; exact congrArg String.mk h, fun h => h ▸ rfl⟩

theorem keyCmp_eq_lt {a b : String} : keyCmp a b = .lt ↔ a.data < b.data := by
  unfold keyCmp
  split
  · simp_all
  · split <;> simp_all

theorem keyCmp_eq_eq {a b : String} : keyCmp a b = .eq ↔ a = b := by
  unfold keyCmp
  split
  · rename_i h
    constructor
    · intro hc; exact absurd hc (by simp)
    · intro hab; exact absurd (string_data_inj.mpr hab ▸ h) (lt_irrefl a.data)
  · split <;> simp_all

theorem keyCmp_eq_gt {a b : String} : keyCmp a b = .gt ↔ b.data < a.data := by
  unfold keyCmp
  split
  · rename_i h
    constructor
    · intro hc; exact absurd hc (by simp)
    · intro hba; exact absurd (h.trans hba) (lt_irrefl a.data)
  · rename_i h
    split
    · rename_i he
      constructor
      · intro hc; exact absurd hc (by simp)
      · intro hba; exact absurd (string_data_inj.mpr he ▸ hba) (lt_irrefl b.data)
    · rename_i he
      simp only [eq_self_iff_true, true_iff]
      rcases lt_trichotomy a.data b.data with hl | hq | hg
      · exact absurd hl h
      · exact absurd (string_data_inj.mp hq) he
      · exact hg

theorem keyCmp_self (a : String) : keyCmp a a = .eq := keyCmp_eq_eq.mpr rfl

/-! #### C1 (pure part): get after put on the loaded view -/

theorem insert_find_self :
    ∀ (t : Tree) (k v : String),
      find k (insert k v t).1 = some v ∧
      (∀ v' sz l r, (insert k v (.node k v' sz l r)).1 = .node k v sz l r) := by
  intro t k v
  constructor
  · induction t with
    | leaf => simp [insert, find, keyCmp_self]
    | node k0 v0 sz l r ihl ihr =>
      cases hc : keyCmp k k0
      · simpa [insert, hc, find] using ihl
      · have : k = k0 := keyCmp_eq_eq.mp hc
        subst this
        simp [insert, hc, find, keyCmp_self]
      · simpa [insert, hc, find] using ihr
  · intro v' sz l r
    simp [insert, keyCmp_self]

/-! #### Lookup and key-set lemmas -/

theorem ne_of_data_lt {a b : String} (h : a.data < b.data) : a ≠ b :=
  fun he => absurd (string_data_inj.mpr he ▸ h) (lt_irrefl a.data)

theorem find_eq_none_of_not_mem {k : String} : ∀ {t : Tree}, k ∉ keys t → find k t = none
  | .leaf, _ => rfl
  | .node k0 v0 sz l r, h => by
    simp only [keys, List.mem_cons, List.mem_append] at h
    push_neg at h
    obtain ⟨hne, hl, hr⟩ := h
    cases hc : keyCmp k k0 with
    | lt => simpa [find, hc] using find_eq_none_of_not_mem hl
    | gt => simpa [find, hc] using find_eq_none_of_not_mem hr
    | eq => exact absurd (keyCmp_eq_eq.mp hc) hne

theorem find_eq_none_of_all_gt {k : String} {t : Tree}
    (h : ∀ x ∈ keys t, k.data < x.data) : find k t = none :=
  find_eq_none_of_not_mem fun hm => absurd (h k hm) (lt_irrefl k.data)

theorem find_eq_none_of_all_lt {k : String} {t : Tree}
    (h : ∀ x ∈ keys t, x.data < k.data) : find k t = none :=
  find_eq_none_of_not_mem fun hm => absurd (h k hm) (lt_irrefl k.data)

theorem isBST_node {k v : String} {sz : Nat} {l r : Tree}
    (h : isBST (.node k v sz l r) = true) :
    (∀ x ∈ keys l, x.data < k.data) ∧ (∀ x ∈ keys r, k.data < x.data) ∧
      isBST l = true ∧ isBST r = true := by
  simpa [isBST, List.all_eq_true, Bool.and_eq_true, and_assoc] using h

/-! #### `delmin` characterization on BSTs -/

theorem delmin_spec :
    ∀ (t : Tree), isBST t = true → t ≠ .leaf →
      ∃ mk mv msz ml mr,
        (delmin t).2 = some (.node mk mv msz ml mr) ∧
        mk ∈ keys t ∧
        (∀ x ∈ keys t, mk.data ≤ x.data) ∧
        find mk t = some mv ∧
        (∀ k', find k' (delmin t).1 = if k' = mk then none else find k' t)
  | .leaf, _, hne => absurd rfl hne
  | .node k v sz .leaf r, hb, _ => by
    obtain ⟨_, hrk, _, _⟩ := isBST_node hb
    refine ⟨k, v, sz, .leaf, r, rfl, by simp [keys], ?_, by simp [find, keyCmp_self], ?_⟩
    · intro x hx
      simp only [keys, List.mem_cons, List.mem_append, List.not_mem_nil, false_or] at hx
      rcases hx with h | h
      · exact le_of_eq (congrArg String.data h.symm)
      · exact le_of_lt (hrk x h)
    · intro k'
      by_cases hk : k' = k
      · subst hk
        simp only [if_pos rfl, delmin]
        exact find_eq_none_of_not_mem fun hm => absurd (hrk k' hm) (lt_irrefl k'.data)
      · rw [if_neg hk]
        show find k' r = find k' (.node k v sz .leaf r)
        cases hc : keyCmp k' k with
        | eq => exact absurd (keyCmp_eq_eq.mp hc) hk
        | lt =>
          rw [find_eq_none_of_all_gt fun x hx => (keyCmp_eq_lt.mp hc).trans (hrk x hx)]
          simp [find, hc]
        | gt => simp [find, hc]
  | .node k v sz (.node lk lv lsz ll lr) r, hb, _ => by
    obtain ⟨hlk, hrk, hbl, hbr⟩ := isBST_node hb
    obtain ⟨mk, mv, msz, ml, mr, h2, hmem, hmin, hfind, hchar⟩ :=
      delmin_spec (.node lk lv lsz ll lr) hbl (by simp)
    have hmk_lt : mk.data < k.data := hlk mk hmem
    have hcc : keyCmp mk k = Ordering.lt := keyCmp_eq_lt.mpr hmk_lt
    refine ⟨mk, mv, msz, ml, mr, by simpa [delmin] using h2, ?_, ?_, ?_, ?_⟩
    · exact List.mem_cons_of_mem _ (List.mem_append_left _ hmem)
    · intro x hx
      have hx' : x = k ∨ x ∈ keys (.node lk lv lsz ll lr) ∨ x ∈ keys r := by
        simpa using (List.mem_cons.mp hx).imp_right List.mem_append.mp
      rcases hx' with h | h | h
      · exact le_of_lt (h ▸ hmk_lt)
      · exact hmin x h
      · exact le_of_lt (hmk_lt.trans (hrk x h))
    · rw [show find mk (.node k v sz (.node lk lv lsz ll lr) r)
            = find mk (.node lk lv lsz ll lr) by simp [find, hcc]]
      exact hfind
    · intro k'
      rw [show (delmin (.node k v sz (.node lk lv lsz ll lr) r)).1
            = .node k v (sz - 1) (delmin (.node lk lv lsz ll lr)).1 r from rfl]
      cases hc : keyCmp k' k with
      | eq =>
        have hk : k' = k := keyCmp_eq_eq.mp hc
        rw [if_neg (hk ▸ (ne_of_data_lt hmk_lt).symm : k' ≠ mk)]
        rw [show find k' (.node k v (sz - 1) (delmin (.node lk lv lsz ll lr)).1 r)
              = some v by simp [find, hc]]
        rw [show find k' (.node k v sz (.node lk lv lsz ll lr) r) = some v by simp [find, hc]]
      | lt =>
        rw [show find k' (.node k v (sz - 1) (delmin (.node lk lv lsz ll lr)).1 r)
              = find k' (delmin (.node lk lv lsz ll lr)).1 by simp [find, hc]]
        rw [hchar k']
        by_cases hk : k' = mk
        · simp [hk]
        · rw [if_neg hk, if_neg hk]
          rw [show find k' (.node k v sz (.node lk lv lsz ll lr) r)
                = find k' (.node lk lv lsz ll lr) by simp [find, hc]]
      | gt =>
        have hne : k' ≠ mk := (ne_of_data_lt (hmk_lt.trans (keyCmp_eq_gt.mp hc))).symm
        rw [if_neg hne]
        rw [show find k' (.node k v (sz - 1) (delmin (.node lk lv lsz ll lr)).1 r)
              = find k' r by simp [find, hc]]
        rw [show find k' (.node k v sz (.node lk lv lsz ll lr) r)
              = find k' r by simp [find, hc]]

/-! #### `_delete` characterization on BSTs -/

theorem delete_find :
    ∀ (t : Tree), isBST t = true → ∀ (k k' : String),
      find k' (delete k t) = if k' = k then none else find k' t
  | .leaf, _, k, k' => by
    simp only [delete, find]
    split <;> rfl
  | .node k0 v0 sz l r, hb, k, k' => by
    obtain ⟨hlk, hrk, hbl, hbr⟩ := isBST_node hb
    cases hc : keyCmp k k0 with
    | lt =>
      have hkk0 : k ≠ k0 := ne_of_data_lt (keyCmp_eq_lt.mp hc)
      have hres : delete k (.node k0 v0 sz l r) = .node k0 v0 (sz - 1) (delete k l) r := by
        simp [delete, hc]
      rw [hres]
      cases hc' : keyCmp k' k0 with
      | lt =>
        rw [show find k' (.node k0 v0 (sz - 1) (delete k l) r) = find k' (delete k l) by
              simp [find, hc']]
        rw [delete_find l hbl k k']
        by_cases hk : k' = k
        · simp [hk]
        · rw [if_neg hk, if_neg hk]
          rw [show find k' (.node k0 v0 sz l r) = find k' l by simp [find, hc']]
      | eq =>
        have hk : k' = k0 := keyCmp_eq_eq.mp hc'
        rw [if_neg (hk ▸ hkk0.symm : k' ≠ k)]
        rw [show find k' (.node k0 v0 (sz - 1) (delete k l) r) = some v0 by simp [find, hc']]
        rw [show find k' (.node k0 v0 sz l r) = some v0 by simp [find, hc']]
      | gt =>
        have hk : k' ≠ k :=
          (ne_of_data_lt ((keyCmp_eq_lt.mp hc).trans (keyCmp_eq_gt.mp hc'))).symm
        rw [if_neg hk]
        rw [show find k' (.node k0 v0 (sz - 1) (delete k l) r) = find k' r by simp [find, hc']]
        rw [show find k' (.node k0 v0 sz l r) = find k' r by simp [find, hc']]
    | gt =>
      have hkk0 : k0 ≠ k := ne_of_data_lt (keyCmp_eq_gt.mp hc)
      have hres : delete k (.node k0 v0 sz l r) = .node k0 v0 (sz - 1) l (delete k r) := by
        simp [delete, hc]
      rw [hres]
      cases hc' : keyCmp k' k0 with
      | gt =>
        rw [show find k' (.node k0 v0 (sz - 1) l (delete k r)) = find k' (delete k r) by
              simp [find, hc']]
        rw [delete_find r hbr k k']
        by_cases hk : k' = k
        · simp [hk]
        · rw [if_neg hk, if_neg hk]
          rw [show find k' (.node k0 v0 sz l r) = find k' r by simp [find, hc']]
      | eq =>
        have hk : k' = k0 := keyCmp_eq_eq.mp hc'
        rw [if_neg (hk ▸ hkk0 : k' ≠ k)]
        rw [show find k' (.node k0 v0 (sz - 1) l (delete k r)) = some v0 by simp [find, hc']]
        rw [show find k' (.node k0 v0 sz l r) = some v0 by simp [find, hc']]
      | lt =>
        have hk : k' ≠ k :=
          ne_of_data_lt ((keyCmp_eq_lt.mp hc').trans (keyCmp_eq_gt.mp hc))
        rw [if_neg hk]
        rw [show find k' (.node k0 v0 (sz - 1) l (delete k r)) = find k' l by simp [find, hc']]
        rw [show find k' (.node k0 v0 sz l r) = find k' l by simp [find, hc']]
    | eq =>
      have hk0 : k = k0 := keyCmp_eq_eq.mp hc
      subst hk0
      cases l with
      | leaf =>
        have hres : delete k (.node k v0 sz .leaf r) = r := by
          cases r <;> simp [delete, hc]
        rw [hres]
        by_cases hk : k' = k
        · subst hk
          rw [if_pos rfl]
          exact find_eq_none_of_all_gt hrk
        · rw [if_neg hk]
          cases hc' : keyCmp k' k with
          | eq => exact absurd (keyCmp_eq_eq.mp hc') hk
          | gt => rw [show find k' (.node k v0 sz .leaf r) = find k' r by simp [find, hc']]
          | lt =>
            rw [find_eq_none_of_all_gt fun x hx => (keyCmp_eq_lt.mp hc').trans (hrk x hx)]
            rw [show find k' (.node k v0 sz Tree.leaf r) = find k' Tree.leaf by simp [find, hc']]
            rfl
      | node lk lv lsz ll lr =>
        cases r with
        | leaf =>
          have hres : delete k (.node k v0 sz (.node lk lv lsz ll lr) .leaf)
              = .node lk lv lsz ll lr := by
            simp [delete, hc]
          rw [hres]
          by_cases hk : k' = k
          · subst hk
            rw [if_pos rfl]
            exact find_eq_none_of_all_lt hlk
          · rw [if_neg hk]
            cases hc' : keyCmp k' k with
            | eq => exact absurd (keyCmp_eq_eq.mp hc') hk
            | lt =>
              rw [show find k' (.node k v0 sz (.node lk lv lsz ll lr) .leaf)
                    = find k' (.node lk lv lsz ll lr) by simp [find, hc']]
            | gt =>
              rw [find_eq_none_of_all_lt fun x hx => (hlk x hx).trans (keyCmp_eq_gt.mp hc')]
              rw [show find k' (.node k v0 sz (.node lk lv lsz ll lr) .leaf)
                    = find k' Tree.leaf by simp [find, hc']]
              rfl
        | node rk0 rv0 rsz0 rl0 rr0 =>
          obtain ⟨mk, mv, msz, ml, mr, h2, hmem, hmin, hfind, hchar⟩ :=
            delmin_spec (.node rk0 rv0 rsz0 rl0 rr0) hbr (by simp)
          have hmk_gt : k.data < mk.data := hrk mk hmem
          have hres : delete k (.node k v0 sz (.node lk lv lsz ll lr) (.node rk0 rv0 rsz0 rl0 rr0))
              = .node mk mv (sz - 1) (.node lk lv lsz ll lr)
                  (delmin (.node rk0 rv0 rsz0 rl0 rr0)).1 := by
            simp [delete, hc, h2]
          rw [hres]
          cases hc' : keyCmp k' mk with
          | eq =>
            have hk' : k' = mk := keyCmp_eq_eq.mp hc'
            rw [if_neg (hk' ▸ (ne_of_data_lt hmk_gt).symm : k' ≠ k)]
            rw [show find k' (.node mk mv (sz - 1) (.node lk lv lsz ll lr)
                  (delmin (.node rk0 rv0 rsz0 rl0 rr0)).1) = some mv by simp [find, hc']]
            rw [show find k' (.node k v0 sz (.node lk lv lsz ll lr)
                  (.node rk0 rv0 rsz0 rl0 rr0)) = find k' (.node rk0 rv0 rsz0 rl0 rr0) by
                simp [find, hk' ▸ keyCmp_eq_gt.mpr hmk_gt]]
            rw [hk', hfind]
          | lt =>
            rw [show find k' (.node mk mv (sz - 1) (.node lk lv lsz ll lr)
                  (delmin (.node rk0 rv0 rsz0 rl0 rr0)).1)
                  = find k' (.node lk lv lsz ll lr) by simp [find, hc']]
            by_cases hk : k' = k
            · subst hk
              rw [if_pos rfl]
              exact find_eq_none_of_all_lt hlk
            · rw [if_neg hk]
              cases hc2 : keyCmp k' k with
              | eq => exact absurd (keyCmp_eq_eq.mp hc2) hk
              | lt =>
                rw [show find k' (.node k v0 sz (.node lk lv lsz ll lr)
                      (.node rk0 rv0 rsz0 rl0 rr0)) = find k' (.node lk lv lsz ll lr) by
                    simp [find, hc2]]
              | gt =>
                rw [find_eq_none_of_all_lt fun x hx => (hlk x hx).trans (keyCmp_eq_gt.mp hc2)]
                rw [show find k' (.node k v0 sz (.node lk lv lsz ll lr)
                      (.node rk0 rv0 rsz0 rl0 rr0)) = find k' (.node rk0 rv0 rsz0 rl0 rr0) by
                    simp [find, hc2]]
                exact (find_eq_none_of_all_gt fun x hx =>
                  lt_of_lt_of_le (keyCmp_eq_lt.mp hc') (hmin x hx)).symm
          | gt =>
            have hne : k' ≠ mk := (ne_of_data_lt (keyCmp_eq_gt.mp hc')).symm
            have hkne : k' ≠ k :=
              (ne_of_data_lt (hmk_gt.trans (keyCmp_eq_gt.mp hc'))).symm
            rw [show find k' (.node mk mv (sz - 1) (.node lk lv lsz ll lr)
                  (delmin (.node rk0 rv0 rsz0 rl0 rr0)).1)
                  = find k' (delmin (.node rk0 rv0 rsz0 rl0 rr0)).1 by simp [find, hc']]
            rw [hchar k', if_neg hne, if_neg hkne]
            rw [show find k' (.node k v0 sz (.node lk lv lsz ll lr)
                  (.node rk0 rv0 rsz0 rl0 rr0)) = find k' (.node rk0 rv0 rsz0 rl0 rr0) by
                simp [find, keyCmp_eq_gt.mpr (hmk_gt.trans (keyCmp_eq_gt.mp hc'))]]

/-! #### C3: delete -/

/-- C3.  `delete(k)` leaves a tree not containing `k` unchanged (the
wrapper checks `_find` first); on a BST it removes exactly `k`: a
subsequent `get(k)` is `none` and every other key's answer is unchanged.
The two-children case is Hibbard deletion through `delmin`, definitional
in `delete`. -/
theorem c3_delete :
    ∀ (t : Tree) (k : String),
      (find k t = none → treeDelete k t = t) ∧
      (isBST t = true → ∀ k', find k' (treeDelete k t) = if k' = k then none else find k' t) := by
  intro t k
  constructor
  · intro h
    simp [treeDelete, h]
  · intro hb k'
    by_cases h : (find k t).isSome
    · rw [treeDelete, if_pos h]
      exact delete_find t hb k k'
    · rw [treeDelete, if_neg h]
      by_cases hk : k' = k
      · subst hk
        rw [if_pos rfl]
        exact Option.not_isSome_iff_eq_none.mp h
      · rw [if_neg hk]

/-- Concrete run of `c3_delete` on a three-node BST. -/
theorem c3_delete_witness :
    isBST (.node "b" "2" 3 (.node "a" "1" 1 .leaf .leaf) (.node "c" "3" 1 .leaf .leaf)) = true ∧
    find "b" (treeDelete "b"
      (.node "b" "2" 3 (.node "a" "1" 1 .leaf .leaf) (.node "c" "3" 1 .leaf .leaf))) = none ∧
    find "a" (treeDelete "b"
      (.node "b" "2" 3 (.node "a" "1" 1 .leaf .leaf) (.node "c" "3" 1 .leaf .leaf))) = some "1" := by
  refine ⟨by decide, ?_, ?_⟩
  · have h := (c3_delete (.node "b" "2" 3 (.node "a" "1" 1 .leaf .leaf)
      (.node "c" "3" 1 .leaf .leaf)) "b").2 (by decide) "b"
    rw [if_pos rfl] at h
    exact h
  · have h := (c3_delete (.node "b" "2" 3 (.node "a" "1" 1 .leaf .leaf)
      (.node "c" "3" 1 .leaf .leaf)) "b").2 (by decide) "a"
    rw [if_neg (by decide)] at h
    rw [h]
    decide

/-! #### Size bookkeeping lemmas -/

theorem sizeOk_node {k v : String} {sz : Nat} {l r : Tree} :
    sizeOk (.node k v sz l r) = true ↔
      sz = 1 + count l + count r ∧ sizeOk l = true ∧ sizeOk r = true := by
  simp [sizeOk, Bool.and_eq_true, and_assoc]

theorem insert_delta :
    ∀ (t : Tree) (k v : String),
      (insert k v t).2 = if (find k t).isSome then 0 else 1
  | .leaf, k, v => by simp [insert, find]
  | .node k0 v0 sz l r, k, v => by
    cases hc : keyCmp k k0 with
    | lt =>
      rw [show (insert k v (.node k0 v0 sz l r)).2 = (insert k v l).2 by simp [insert, hc]]
      rw [show find k (.node k0 v0 sz l r) = find k l by simp [find, hc]]
      exact insert_delta l k v
    | gt =>
      rw [show (insert k v (.node k0 v0 sz l r)).2 = (insert k v r).2 by simp [insert, hc]]
      rw [show find k (.node k0 v0 sz l r) = find k r by simp [find, hc]]
      exact insert_delta r k v
    | eq => simp [insert, find, hc]

theorem insert_count :
    ∀ (t : Tree) (k v : String),
      count (insert k v t).1 = count t + (insert k v t).2
  | .leaf, k, v => by simp [insert, count]
  | .node k0 v0 sz l r, k, v => by
    cases hc : keyCmp k k0 with
    | lt =>
      have ih := insert_count l k v
      rw [show (insert k v (.node k0 v0 sz l r)).1
            = .node k0 v0 (sz + (insert k v l).2) (insert k v l).1 r by simp [insert, hc]]
      rw [show (insert k v (.node k0 v0 sz l r)).2 = (insert k v l).2 by simp [insert, hc]]
      simp only [count]
      omega
    | gt =>
      have ih := insert_count r k v
      rw [show (insert k v (.node k0 v0 sz l r)).1
            = .node k0 v0 (sz + (insert k v r).2) l (insert k v r).1 by simp [insert, hc]]
      rw [show (insert k v (.node k0 v0 sz l r)).2 = (insert k v r).2 by simp [insert, hc]]
      simp only [count]
      omega
    | eq => simp [insert, hc, count]

theorem insert_sizeOk :
    ∀ (t : Tree) (k v : String), sizeOk t = true → sizeOk (insert k v t).1 = true
  | .leaf, k, v, _ => by simp [insert, sizeOk, count]
  | .node k0 v0 sz l r, k, v, hs => by
    obtain ⟨hsz, hsl, hsr⟩ := sizeOk_node.mp hs
    cases hc : keyCmp k k0 with
    | lt =>
      rw [show (insert k v (.node k0 v0 sz l r)).1
            = .node k0 v0 (sz + (insert k v l).2) (insert k v l).1 r by simp [insert, hc]]
      refine sizeOk_node.mpr ⟨?_, insert_sizeOk l k v hsl, hsr⟩
      have := insert_count l k v
      omega
    | gt =>
      rw [show (insert k v (.node k0 v0 sz l r)).1
            = .node k0 v0 (sz + (insert k v r).2) l (insert k v r).1 by simp [insert, hc]]
      refine sizeOk_node.mpr ⟨?_, hsl, insert_sizeOk r k v hsr⟩
      have := insert_count r k v
      omega
    | eq =>
      rw [show (insert k v (.node k0 v0 sz l r)).1 = .node k0 v sz l r by simp [insert, hc]]
      exact sizeOk_node.mpr ⟨hsz, hsl, hsr⟩

theorem insert_sizesList :
    ∀ (t : Tree) (k v : String), (find k t).isSome = true →
      sizesList (insert k v t).1 = sizesList t
  | .leaf, k, v, h => by simp [find] at h
  | .node k0 v0 sz l r, k, v, h => by
    cases hc : keyCmp k k0 with
    | lt =>
      have hl : (find k l).isSome = true := by
        rw [show find k (.node k0 v0 sz l r) = find k l by simp [find, hc]] at h
        exact h
      have hd : (insert k v l).2 = 0 := by rw [insert_delta l k v, if_pos hl]
      rw [show (insert k v (.node k0 v0 sz l r)).1
            = .node k0 v0 (sz + (insert k v l).2) (insert k v l).1 r by simp [insert, hc]]
      simp only [sizesList, hd, Nat.add_zero, insert_sizesList l k v hl]
    | gt =>
      have hr : (find k r).isSome = true := by
        rw [show find k (.node k0 v0 sz l r) = find k r by simp [find, hc]] at h
        exact h
      have hd : (insert k v r).2 = 0 := by rw [insert_delta r k v, if_pos hr]
      rw [show (insert k v (.node k0 v0 sz l r)).1
            = .node k0 v0 (sz + (insert k v r).2) l (insert k v r).1 by simp [insert, hc]]
      simp only [sizesList, hd, Nat.add_zero, insert_sizesList r k v hr]
    | eq =>
      rw [show (insert k v (.node k0 v0 sz l r)).1 = .node k0 v sz l r by simp [insert, hc]]
      simp [sizesList]

theorem delmin_rep :
    ∀ (t : Tree), t ≠ .leaf →
      ∃ mk mv msz ml mr, (delmin t).2 = some (.node mk mv msz ml mr)
  | .leaf, h => absurd rfl h
  | .node k v sz .leaf r, _ => ⟨k, v, sz, .leaf, r, rfl⟩
  | .node k v sz (.node lk lv lsz ll lr) r, _ =>
    delmin_rep (.node lk lv lsz ll lr) (by simp)

theorem delmin_count :
    ∀ (t : Tree), t ≠ .leaf → count (delmin t).1 + 1 = count t
  | .leaf, h => absurd rfl h
  | .node k v sz .leaf r, _ => by simp [delmin, count]; omega
  | .node k v sz (.node lk lv lsz ll lr) r, _ => by
    have ih := delmin_count (.node lk lv lsz ll lr) (by simp)
    rw [show (delmin (.node k v sz (.node lk lv lsz ll lr) r)).1
          = .node k v (sz - 1) (delmin (.node lk lv lsz ll lr)).1 r from rfl]
    simp only [count] at ih ⊢
    omega

theorem delmin_sizeOk :
    ∀ (t : Tree), sizeOk t = true → sizeOk (delmin t).1 = true
  | .leaf, _ => rfl
  | .node k v sz .leaf r, hs => by
    obtain ⟨_, _, hsr⟩ := sizeOk_node.mp hs
    simpa [delmin] using hsr
  | .node k v sz (.node lk lv lsz ll lr) r, hs => by
    obtain ⟨hsz, hsl, hsr⟩ := sizeOk_node.mp hs
    have ihc := delmin_count (.node lk lv lsz ll lr) (by simp)
    rw [show (delmin (.node k v sz (.node lk lv lsz ll lr) r)).1
          = .node k v (sz - 1) (delmin (.node lk lv lsz ll lr)).1 r from rfl]
    refine sizeOk_node.mpr ⟨?_, delmin_sizeOk _ hsl, hsr⟩
    simp only [count] at hsz ihc ⊢
    omega

theorem delete_count :
    ∀ (t : Tree) (k : String), (find k t).isSome = true → count (delete k t) + 1 = count t
  | .leaf, k, h => by simp [find] at h
  | .node k0 v0 sz l r, k, h => by
    cases hc : keyCmp k k0 with
    | lt =>
      have hl : (find k l).isSome = true := by
        rw [show find k (.node k0 v0 sz l r) = find k l by simp [find, hc]] at h
        exact h
      have ih := delete_count l k hl
      rw [show delete k (.node k0 v0 sz l r) = .node k0 v0 (sz - 1) (delete k l) r by
            simp [delete, hc]]
      simp only [count] at ih ⊢
      omega
    | gt =>
      have hr : (find k r).isSome = true := by
        rw [show find k (.node k0 v0 sz l r) = find k r by simp [find, hc]] at h
        exact h
      have ih := delete_count r k hr
      rw [show delete k (.node k0 v0 sz l r) = .node k0 v0 (sz - 1) l (delete k r) by
            simp [delete, hc]]
      simp only [count] at ih ⊢
      omega
    | eq =>
      cases l with
      | leaf =>
        rw [show delete k (.node k0 v0 sz .leaf r) = r by cases r <;> simp [delete, hc]]
        simp [count]
        omega
      | node lk lv lsz ll lr =>
        cases r with
        | leaf =>
          rw [show delete k (.node k0 v0 sz (.node lk lv lsz ll lr) .leaf)
                = .node lk lv lsz ll lr by simp [delete, hc]]
          simp [count]
          omega
        | node rk0 rv0 rsz0 rl0 rr0 =>
          have ihc := delmin_count (.node rk0 rv0 rsz0 rl0 rr0) (by simp)
          obtain ⟨mk, mv, msz, ml, mr, h2⟩ := delmin_rep (.node rk0 rv0 rsz0 rl0 rr0) (by simp)
          have hres : delete k (.node k0 v0 sz (.node lk lv lsz ll lr)
                (.node rk0 rv0 rsz0 rl0 rr0))
              = .node mk mv (sz - 1) (.node lk lv lsz ll lr)
                  (delmin (.node rk0 rv0 rsz0 rl0 rr0)).1 := by
            simp [delete, hc, h2]
          rw [hres]
          simp only [count] at ihc ⊢
          omega

theorem delete_sizeOk :
    ∀ (t : Tree) (k : String), sizeOk t = true → (find k t).isSome = true →
      sizeOk (delete k t) = true
  | .leaf, k, _, h => by simp [find] at h
  | .node k0 v0 sz l r, k, hs, h => by
    obtain ⟨hsz, hsl, hsr⟩ := sizeOk_node.mp hs
    cases hc : keyCmp k k0 with
    | lt =>
      have hl : (find k l).isSome = true := by
        rw [show find k (.node k0 v0 sz l r) = find k l by simp [find, hc]] at h
        exact h
      rw [show delete k (.node k0 v0 sz l r) = .node k0 v0 (sz - 1) (delete k l) r by
            simp [delete, hc]]
      refine sizeOk_node.mpr ⟨?_, delete_sizeOk l k hsl hl, hsr⟩
      have := delete_count l k hl
      omega
    | gt =>
      have hr : (find k r).isSome = true := by
        rw [show find k (.node k0 v0 sz l r) = find k r by simp [find, hc]] at h
        exact h
      rw [show delete k (.node k0 v0 sz l r) = .node k0 v0 (sz - 1) l (delete k r) by
            simp [delete, hc]]
      refine sizeOk_node.mpr ⟨?_, hsl, delete_sizeOk r k hsr hr⟩
      have := delete_count r k hr
      omega
    | eq =>
      cases l with
      | leaf =>
        rw [show delete k (.node k0 v0 sz .leaf r) = r by cases r <;> simp [delete, hc]]
        exact hsr
      | node lk lv lsz ll lr =>
        cases r with
        | leaf =>
          rw [show delete k (.node k0 v0 sz (.node lk lv lsz ll lr) .leaf)
                = .node lk lv lsz ll lr by simp [delete, hc]]
          exact hsl
        | node rk0 rv0 rsz0 rl0 rr0 =>
          have ihc := delmin_count (.node rk0 rv0 rsz0 rl0 rr0) (by simp)
          have ihs := delmin_sizeOk (.node rk0 rv0 rsz0 rl0 rr0) hsr
          obtain ⟨mk, mv, msz, ml, mr, h2⟩ := delmin_rep (.node rk0 rv0 rsz0 rl0 rr0) (by simp)
          have hres : delete k (.node k0 v0 sz (.node lk lv lsz ll lr)
                (.node rk0 rv0 rsz0 rl0 rr0))
              = .node mk mv (sz - 1) (.node lk lv lsz ll lr)
                  (delmin (.node rk0 rv0 rsz0 rl0 rr0)).1 := by
            simp [delete, hc, h2]
          rw [hres]
          refine sizeOk_node.mpr ⟨?_, hsl, ihs⟩
          simp only [count] at hsz ihc ⊢
          omega

/-! #### C5: size invariant -/

/-- C5.  `size = 1 + size(left) + size(right)` is preserved by `_insert`
and by `delete` (whose rewritten path nodes are each decremented by one);
inserting an already present key reports `size_delta = 0` and leaves every
node's `size` unchanged. -/
theorem c5_size_invariant :
    ∀ (t : Tree) (k v : String),
      (sizeOk t = true → sizeOk (insert k v t).1 = true ∧ sizeOk (treeDelete k t) = true) ∧
      ((find k t).isSome = true →
        (insert k v t).2 = 0 ∧ sizesList (insert k v t).1 = sizesList t) := by
  intro t k v
  constructor
  · intro hs
    refine ⟨insert_sizeOk t k v hs, ?_⟩
    unfold treeDelete
    by_cases h : (find k t).isSome
    · rw [if_pos h]
      exact delete_sizeOk t k hs h
    · rw [if_neg h]
      exact hs
  · intro h
    exact ⟨by rw [insert_delta t k v, if_pos h], insert_sizesList t k v h⟩

/-- Concrete run of `c5_size_invariant` on a two-node tree. -/
theorem c5_size_invariant_witness :
    sizeOk (.node "b" "2" 2 (.node "a" "1" 1 .leaf .leaf) .leaf) = true ∧
    sizeOk (insert "c" "3" (.node "b" "2" 2 (.node "a" "1" 1 .leaf .leaf) .leaf)).1 = true ∧
    (insert "a" "9" (.node "b" "2" 2 (.node "a" "1" 1 .leaf .leaf) .leaf)).2 = 0 := by
  refine ⟨by decide, ?_, ?_⟩
  · exact ((c5_size_invariant (.node "b" "2" 2 (.node "a" "1" 1 .leaf .leaf) .leaf)
      "c" "3").1 (by decide)).1
  · exact ((c5_size_invariant (.node "b" "2" 2 (.node "a" "1" 1 .leaf .leaf) .leaf)
      "a" "9").2 (by decide)).1

/-! ### Agent-level model

`StringAgent` / `TreeNodeAgent` from `logical_tree.rs` and the
record-granular view of `FileStorage` from `storage.rs`.  The data region
is the list of records appended so far; the address of the `i`-th record
is modelled as `SUPERBLOCK + i` (the source's byte offsets are a strictly
monotone function of the append index, and `get_write_addr` returns the
end of file, i.e. the address the next appended record will occupy).
Failures of the underlying file writes are modelled by a fault list
consumed one entry per write (an exhausted list means no failure),
mirroring the `?` early returns in the Rust code.  Reads (seek + decode)
are modelled as pure lookups. -/

def SUPERBLOCK : Nat := 512

/-- `TreeNodeHD`: the persisted form of a tree node. -/
structure TreeNodeHD where
  key : String
  value_addr : Option Nat
  left_addr : Option Nat
  right_addr : Option Nat
  size : Nat
deriving DecidableEq, Repr

/-- A record in the append-only data region: either a value record
(the string written by `StringAgent::store`) or a node record
(the `TreeNodeHD` written by `TreeNodeAgent::store`). -/
inductive Record where
  | val (s : String)
  | node (hd : TreeNodeHD)
deriving DecidableEq, Repr

/-- Record-granular storage state: the data region (append order), the
decoded superblock root pointer, and the fault injection list for writes. -/
structure StoreSt where
  recs : List Record
  rootAddr : Option Nat
  faults : List Bool
deriving DecidableEq, Repr

/-- `Storage::get_write_addr`: seek to end, return that offset. -/
def StoreSt.writeAddr (st : StoreSt) : Nat := SUPERBLOCK + st.recs.length

def popFault (st : StoreSt) : Bool × StoreSt :=
  match st.faults with
  | [] => (false, st)
  | b :: rest => (b, { st with faults := rest })

/-- One write of an encoded record to the data region (`SerdeJson::to_writer`
through the append-only `Write` impl).  Returns `false` if the injected
fault fires, in which case nothing is appended. -/
def writeRec (r : Record) (st : StoreSt) : Bool × StoreSt :=
  let res := popFault st
  if res.1 then (false, res.2)
  else (true, { res.2 with recs := res.2.recs ++ [r] })

/-- `Storage::commit_root_addr`: rewrite the superblock; `addr == 0`
encodes "root = none". -/
def commitRootAddr (addr : Nat) (st : StoreSt) : Bool × StoreSt :=
  let res := popFault st
  if res.1 then (false, res.2)
  else (true, { res.2 with rootAddr := if addr = 0 then none else some addr })

/-- `Storage::get_root_addr`: decode the superblock. -/
def getRootAddr (st : StoreSt) : Option Nat := st.rootAddr

/-- `StringAgent`: optional cached string, optional address. -/
structure StringAgent where
  inner : Option String
  addr : Option Nat
deriving DecidableEq, Repr

/-- A node agent (`TreeNodeAgent<StringAgent>`) together with the optional
child link that holds it.  `nil` is `Option::None` (no child);
`addrOnly a` is an agent with `inner = None, addr = Some a` (materialized
from disk, not yet faulted in); `loaded` is an agent whose `TreeNode`
payload is cached (with its key, size, value agent and child links).
The illegal `¬loaded ∧ ¬addressed` agent state is never constructed by
the program and is not representable. -/
inductive NodeAgent where
  | nil
  | addrOnly (addr : Nat)
  | loaded (addr : Option Nat) (key : String) (size : Nat)
      (value : StringAgent) (left : NodeAgent) (right : NodeAgent)
deriving DecidableEq, Repr

/-- `Agent::addr` lifted over the optional child link
(`left_agent.as_ref().and_then(|rc| rc.borrow().addr())`). -/
def NodeAgent.addrOf : NodeAgent → Option Nat
  | .nil => none
  | .addrOnly a => some a
  | .loaded a _ _ _ _ _ => a

/-- `StringAgent::store`: write only when `inner` is present and `addr` is
absent; the address is taken from `get_write_addr` before the write is
attempted (as in the source, where `self.addr` is assigned before
`to_writer` runs). -/
def StringAgent.store (a : StringAgent) (st : StoreSt) : Bool × StringAgent × StoreSt :=
  match a.inner, a.addr with
  | some s, none =>
    let wa := st.writeAddr
    let res := writeRec (.val s) st
    (res.1, { inner := some s, addr := some wa }, res.2)
  | _, _ => (true, a, st)

/-- `TreeNodeAgent::store`: no-op unless loaded and unaddressed; otherwise
store the value agent, then the left child, then the right child, then
take `get_write_addr` as own address and append the `TreeNodeHD` built
from the now-known value and child addresses.  Each failing `?` returns
early with the mutations performed so far. -/
def NodeAgent.store : NodeAgent → StoreSt → Bool × NodeAgent × StoreSt
  | .nil, st => (true, .nil, st)
  | .addrOnly a, st => (true, .addrOnly a, st)
  | .loaded (some a) k sz v l r, st => (true, .loaded (some a) k sz v l r, st)
  | .loaded none k sz v l r, st =>
    let rv := StringAgent.store v st
    if rv.1 = false then (false, .loaded none k sz rv.2.1 l r, rv.2.2) else
    let rl := NodeAgent.store l rv.2.2
    if rl.1 = false then (false, .loaded none k sz rv.2.1 rl.2.1 r, rl.2.2) else
    let rr := NodeAgent.store r rl.2.2
    if rr.1 = false then (false, .loaded none k sz rv.2.1 rl.2.1 rr.2.1, rr.2.2) else
    let wa := rr.2.2.writeAddr
    let res := writeRec (.node ⟨k, rv.2.1.addr, rl.2.1.addrOf, rr.2.1.addrOf, sz⟩) rr.2.2
    (res.1, .loaded (some wa) k sz rv.2.1 rl.2.1 rr.2.1, res.2)

/-- `BinaryTree::store`: store the root if any and return its (now
assigned) address; `none` when the tree is empty. -/
def btStore (root : NodeAgent) (st : StoreSt) : Bool × NodeAgent × Option Nat × StoreSt :=
  match root with
  | .nil => (true, .nil, none, st)
  | _ =>
    let res := root.store st
    if res.1 then (true, res.2.1, res.2.1.addrOf, res.2.2)
    else (false, res.2.1, none, res.2.2)

/-- Decode the record at an address (seek + `from_reader`). -/
def loadRec (st : StoreSt) (a : Nat) : Option Record :=
  if a < SUPERBLOCK then none else st.recs[a - SUPERBLOCK]?

/-- `TreeNodeAgent::load` + `From<TreeNodeHD> for TreeNode`: fault the
node in, keeping the address; the value agent starts unloaded at
`value_addr`, children become address-only agents. -/
def resolveNode (ag : NodeAgent) (st : StoreSt) : Option NodeAgent :=
  match ag with
  | .nil => none
  | .loaded a k sz v l r => some (.loaded a k sz v l r)
  | .addrOnly a =>
    match loadRec st a with
    | some (.node hd) =>
      some (.loaded (some a) hd.key hd.size ⟨none, hd.value_addr⟩
        (match hd.left_addr with | some x => .addrOnly x | none => .nil)
        (match hd.right_addr with | some x => .addrOnly x | none => .nil))
    | _ => none

/-- `BinaryTree::_find`, returning the value agent.  The `fuel` bounds
the recursion depth (the source recursion is bounded by the actual tree
depth); outer `none` is an I/O / decode error. -/
def findAgent (fuel : Nat) (key : String) (ag : NodeAgent) (st : StoreSt) :
    Option (Option StringAgent) :=
  match fuel with
  | 0 => none
  | fuel + 1 =>
    match ag with
    | .nil => some none
    | _ =>
      match resolveNode ag st with
      | some (.loaded _ k _ v l r) =>
        match keyCmp key k with
        | .lt => findAgent fuel key l st
        | .gt => findAgent fuel key r st
        | .eq => some (some v)
      | _ => none

/-- `StringAgent::get`: fault the string in if needed. -/
def StringAgent.getStr (a : StringAgent) (st : StoreSt) : Option (Option String) :=
  match a.inner, a.addr with
  | some s, _ => some (some s)
  | none, some ad =>
    match loadRec st ad with
    | some (.val s) => some (some s)
    | _ => none
  | none, none => some none

/-- `BinaryTree::find`: `_find`, then read the string out of the value
agent. -/
def btFind (fuel : Nat) (key : String) (root : NodeAgent) (st : StoreSt) :
    Option (Option String) :=
  match findAgent fuel key root st with
  | none => none
  | some none => some none
  | some (some va) =>
    match va.getStr st with
    | some (some s) => some (some s)
    | some none => some none
    | none => none

/-- `BinaryTree::_insert` over agents: path copying; the storage is only
read (through `resolveNode`), never written. -/
def insertAgent (fuel : Nat) (key value : String) (ag : NodeAgent) (st : StoreSt) :
    Option (NodeAgent × Nat) :=
  match fuel with
  | 0 => none
  | fuel + 1 =>
    match ag with
    | .nil => some (.loaded none key 1 ⟨some value, none⟩ .nil .nil, 1)
    | _ =>
      match resolveNode ag st with
      | some (.loaded _ k sz v l r) =>
        match keyCmp key k with
        | .lt =>
          match insertAgent fuel key value l st with
          | some (nl, d) => some (.loaded none k (sz + d) v nl r, d)
          | none => none
        | .gt =>
          match insertAgent fuel key value r st with
          | some (nr, d) => some (.loaded none k (sz + d) v l nr, d)
          | none => none
        | .eq => some (.loaded none k sz ⟨some value, none⟩ l r, 0)
      | _ => none

/-- `BinaryTree::_delmin` over agents. -/
def delminAgent (fuel : Nat) (ag : NodeAgent) (st : StoreSt) :
    Option (NodeAgent × NodeAgent) :=
  match fuel with
  | 0 => none
  | fuel + 1 =>
    match ag with
    | .nil => some (.nil, .nil)
    | _ =>
      match resolveNode ag st with
      | some (.loaded a k sz v l r) =>
        match l with
        | .nil => some (r, .loaded a k sz v l r)
        | _ =>
          match delminAgent fuel l st with
          | some (m, rep) => some (.loaded none k (sz - 1) v m r, rep)
          | none => none
      | _ => none

/-- `BinaryTree::_delete` over agents. -/
def deleteAgent (fuel : Nat) (key : String) (ag : NodeAgent) (st : StoreSt) :
    Option NodeAgent :=
  match fuel with
  | 0 => none
  | fuel + 1 =>
    match ag with
    | .nil => some .nil
    | _ =>
      match resolveNode ag st with
      | some (.loaded _ k sz v l r) =>
        match keyCmp key k with
        | .lt =>
          match deleteAgent fuel key l st with
          | some nl => some (.loaded none k (sz - 1) v nl r)
          | none => none
        | .gt =>
          match deleteAgent fuel key r st with
          | some nr => some (.loaded none k (sz - 1) v l nr)
          | none => none
        | .eq =>
          match l, r with
          | .nil, _ => some r
          | _, .nil => some l
          | _, _ =>
            match delminAgent fuel r st with
            | some (m, rep) =>
              match rep with
              | .nil => some (.loaded none k (sz - 1) v l r)
              | _ =>
                match resolveNode rep st with
                | some (.loaded _ rk _ rv _ _) =>
                  some (.loaded none rk (sz - 1) rv l m)
                | _ => none
            | none => none
      | _ => none

/-- `BinaryTree::delete`: `_find` first; if the key is absent the root is
unchanged. -/
def btDelete (fuel : Nat) (key : String) (root : NodeAgent) (st : StoreSt) :
    Option NodeAgent :=
  match findAgent fuel key root st with
  | none => none
  | some none => some root
  | some (some _) => deleteAgent fuel key root st

/-! ### Transaction facade (`LogicalTree`) -/

/-- `LogicalTree` state: the storage (the shared backing file), whether
the file-lock guard is held (`InTxn` iff `guard = true`) and the
`BinaryTree` root. -/
structure DB where
  st : StoreSt
  guard : Bool
  tree : NodeAgent
deriving DecidableEq, Repr

/-- `LogicalTree::refresh_tree_view`: `change_view` only when the
superblock holds a root address. -/
def refreshTreeView (db : DB) : DB :=
  match getRootAddr db.st with
  | some a => { db with tree := .addrOnly a }
  | none => db

/-- `LogicalTree::begin`: acquire the lock and refresh the view (no-op
when already in a transaction). -/
def dbBegin (db : DB) : DB :=
  if db.guard then db else refreshTreeView { db with guard := true }

/-- `LogicalTree::commit`: store the tree; if a root address was produced,
write the superblock with it; afterwards drop the guard.  Each `?` error
returns early, leaving the guard in place. -/
def commit (db : DB) : Bool × DB :=
  match btStore db.tree db.st with
  | (false, tree1, _, st1) => (false, { db with st := st1, tree := tree1 })
  | (true, tree1, none, st1) => (true, { st := st1, guard := false, tree := tree1 })
  | (true, tree1, some a, st1) =>
    let res := commitRootAddr a st1
    if res.1 then (true, { st := res.2, guard := false, tree := tree1 })
    else (false, { db with st := res.2, tree := tree1 })

/-- `LogicalTree::put`: in a transaction, insert in place; otherwise wrap
in `begin` / `commit`. -/
def put (db : DB) (fuel : Nat) (key value : String) : Option DB :=
  if db.guard then
    match insertAgent fuel key value db.tree db.st with
    | some res => some { db with tree := res.1 }
    | none => none
  else
    let db1 := dbBegin db
    match insertAgent fuel key value db1.tree db1.st with
    | some res =>
      let res2 := commit { db1 with tree := res.1 }
      if res2.1 then some res2.2 else none
    | none => none

/-- `LogicalTree::del`: in a transaction, delete in place; otherwise wrap
in `begin` / `commit`. -/
def del (db : DB) (fuel : Nat) (key : String) : Option DB :=
  if db.guard then
    match btDelete fuel key db.tree db.st with
    | some t1 => some { db with tree := t1 }
    | none => none
  else
    let db1 := dbBegin db
    match btDelete fuel key db1.tree db1.st with
    | some t1 =>
      let res2 := commit { db1 with tree := t1 }
      if res2.1 then some res2.2 else none
    | none => none

/-- What an independently opened handle on the same file observes:
`LogicalTree::new` (fresh empty tree, then `refresh_tree_view`) followed
by a `get` in the `Idle` state. -/
def getCommitted (st : StoreSt) (fuel : Nat) (key : String) : Option (Option String) :=
  btFind fuel key
    (match getRootAddr st with
     | some a => .addrOnly a
     | none => .nil) st

/-! #### C1: get after put -/

theorem insertAgent_find :
    ∀ (fuel : Nat) (k v : String) (ag : NodeAgent) (st : StoreSt) (res : NodeAgent × Nat),
      insertAgent fuel k v ag st = some res → btFind fuel k res.1 st = some (some v)
  | 0, k, v, ag, st, res, h => by simp [insertAgent] at h
  | fuel + 1, k, v, ag, st, res, h => by
    have step :
        ∀ (a0 : Option Nat) (k0 : String) (sz0 : Nat) (v0 : StringAgent) (l0 r0 : NodeAgent),
          (match keyCmp k k0 with
            | Ordering.lt =>
              match insertAgent fuel k v l0 st with
              | some (nl, d) => some (NodeAgent.loaded none k0 (sz0 + d) v0 nl r0, d)
              | none => none
            | Ordering.gt =>
              match insertAgent fuel k v r0 st with
              | some (nr, d) => some (NodeAgent.loaded none k0 (sz0 + d) v0 l0 nr, d)
              | none => none
            | Ordering.eq =>
              some (NodeAgent.loaded none k0 sz0 ⟨some v, none⟩ l0 r0, 0)) = some res →
          btFind (fuel + 1) k res.1 st = some (some v) := by
      intro a0 k0 sz0 v0 l0 r0 h2
      cases hc : keyCmp k k0 with
      | lt =>
        simp only [hc] at h2
        cases hi : insertAgent fuel k v l0 st with
        | none => simp [hi] at h2
        | some res0 =>
          simp only [hi, Option.some.injEq] at h2
          subst h2
          have hfind : findAgent (fuel + 1) k (.loaded none k0 (sz0 + res0.2) v0 res0.1 r0) st
              = findAgent fuel k res0.1 st := by
            simp [findAgent, resolveNode, hc]
          show btFind (fuel + 1) k (.loaded none k0 (sz0 + res0.2) v0 res0.1 r0) st
              = some (some v)
          unfold btFind
          rw [hfind]
          have ih := insertAgent_find fuel k v l0 st res0 hi
          unfold btFind at ih
          exact ih
      | gt =>
        simp only [hc] at h2
        cases hi : insertAgent fuel k v r0 st with
        | none => simp [hi] at h2
        | some res0 =>
          simp only [hi, Option.some.injEq] at h2
          subst h2
          have hfind : findAgent (fuel + 1) k (.loaded none k0 (sz0 + res0.2) v0 l0 res0.1) st
              = findAgent fuel k res0.1 st := by
            simp [findAgent, resolveNode, hc]
          show btFind (fuel + 1) k (.loaded none k0 (sz0 + res0.2) v0 l0 res0.1) st
              = some (some v)
          unfold btFind
          rw [hfind]
          have ih := insertAgent_find fuel k v r0 st res0 hi
          unfold btFind at ih
          exact ih
      | eq =>
        simp only [hc, Option.some.injEq] at h2
        subst h2
        show btFind (fuel + 1) k (.loaded none k0 sz0 ⟨some v, none⟩ l0 r0) st
            = some (some v)
        unfold btFind
        rw [show findAgent (fuel + 1) k (.loaded none k0 sz0 ⟨some v, none⟩ l0 r0) st
              = some (some ⟨some v, none⟩) by simp [findAgent, resolveNode, hc]]
        simp [StringAgent.getStr]
    cases ag with
    | nil =>
      simp only [insertAgent, Option.some.injEq] at h
      subst h
      simp [btFind, findAgent, resolveNode, keyCmp_self, StringAgent.getStr]
    | addrOnly a =>
      have hmain : (match resolveNode (.addrOnly a) st with
          | some (.loaded _ k0 sz0 v0 l0 r0) =>
            match keyCmp k k0 with
            | Ordering.lt =>
              match insertAgent fuel k v l0 st with
              | some (nl, d) => some (NodeAgent.loaded none k0 (sz0 + d) v0 nl r0, d)
              | none => none
            | Ordering.gt =>
              match insertAgent fuel k v r0 st with
              | some (nr, d) => some (NodeAgent.loaded none k0 (sz0 + d) v0 l0 nr, d)
              | none => none
            | Ordering.eq =>
              some (NodeAgent.loaded none k0 sz0 ⟨some v, none⟩ l0 r0, 0)
          | _ => none) = some res := h
      cases hres : resolveNode (.addrOnly a) st with
      | none => simp [hres] at hmain
      | some ag0 =>
        cases ag0 with
        | nil => simp [hres] at hmain
        | addrOnly b => simp [hres] at hmain
        | loaded a0 k0 sz0 v0 l0 r0 =>
          simp only [hres] at hmain
          exact step a0 k0 sz0 v0 l0 r0 hmain
    | loaded a0 k0 sz0 v0 l0 r0 =>
      exact step a0 k0 sz0 v0 l0 r0 h

/-- C1.  After `put(k, v)` succeeds, a `get(k)` on the same handle
returns `Some v`: on the loaded view `_insert` descends by lexicographic
comparison (less left, greater right), an equal key replaces the value
agent with a fresh one holding the new value, and `find` after `insert`
returns the inserted value; at the facade level, an in-transaction `put`
followed by the same handle's `find` yields the value. -/
theorem c1_put_get :
    (∀ (t : Tree) (k v : String),
      find k (insert k v t).1 = some v ∧
      (∀ v' sz l r, (insert k v (.node k v' sz l r)).1 = .node k v sz l r)) ∧
    (∀ (db : DB) (fuel : Nat) (k v : String) (db' : DB),
      db.guard = true → put db fuel k v = some db' →
      btFind fuel k db'.tree db'.st = some (some v)) := by
  constructor
  · exact insert_find_self
  · intro db fuel k v db' hg hp
    unfold put at hp
    rw [if_pos hg] at hp
    cases hi : insertAgent fuel k v db.tree db.st with
    | none => rw [hi] at hp; exact absurd hp (by simp)
    | some res =>
      rw [hi] at hp
      simp only [Option.some.injEq] at hp
      subst hp
      exact insertAgent_find fuel k v db.tree db.st res hi

/-- An empty `InTxn` handle over an empty file. -/
def c1db : DB :=
  { st := { recs := [], rootAddr := none, faults := [] }, guard := true, tree := .nil }

/-- Concrete run of `c1_put_get`: a `put` into an empty in-transaction
handle, then a `get` of the same key. -/
theorem c1_put_get_witness :
    find "a" (insert "a" "1" .leaf).1 = some "1" ∧
    (∃ db', put c1db 2 "a" "1" = some db' ∧
      btFind 2 "a" db'.tree db'.st = some (some "1")) := by
  refine ⟨(c1_put_get.1 .leaf "a" "1").1, ?_⟩
  refine ⟨{ c1db with tree := .loaded none "a" 1 ⟨some "1", none⟩ .nil .nil }, by decide, ?_⟩
  exact c1_put_get.2 c1db 2 "a" "1" _ rfl (by decide)

/-! #### C2: commit of an empty tree -/

/-- A facade in `InTxn` whose working tree became empty (e.g. after
deleting every key), over a file whose superblock still holds a root
address. -/
def c2db : DB :=
  { st := { recs := [], rootAddr := some 600, faults := [] }, guard := true, tree := .nil }

/-- C2 fails on the code: committing an empty tree skips the superblock
write entirely (`if let Some(addr) = self.tree.store(...)`), so the
on-disk root keeps its previous value instead of reflecting the
transaction's final (empty) tree; the lock is still released. -/
theorem c2_commit_empty_tree_keeps_old_root :
    (commit c2db).1 = true ∧
    (commit c2db).2.guard = false ∧
    (commit c2db).2.st.rootAddr = some 600 := by
  refine ⟨rfl, rfl, rfl⟩

/-! #### C9: commit errors keep the transaction open -/

theorem commit_guard (db : DB) :
    (commit db).2.guard = if (commit db).1 then false else db.guard := by
  unfold commit
  rcases hbt : btStore db.tree db.st with ⟨ok, tree1, addrOpt, st1⟩
  cases ok with
  | false => simp
  | true =>
    cases addrOpt with
    | none => simp
    | some a =>
      by_cases hr : (commitRootAddr a st1).1
      · simp [hr]
      · simp [hr]

/-- C9.  If `commit` fails — in `BinaryTree::store` or in
`commit_root_addr` — the `?` returns before `self.guard.take()`, so the
lock guard is kept and the facade stays `InTxn`; the guard is dropped
exactly when commit returns successfully. -/
theorem c9_commit_error_keeps_guard :
    ∀ db : DB, db.guard = true →
      ((commit db).1 = false → (commit db).2.guard = true) ∧
      ((commit db).1 = true → (commit db).2.guard = false) := by
  intro db hg
  have h := commit_guard db
  constructor <;> intro hc <;> rw [hc] at h <;> simpa [hg] using h

/-- `InTxn` facade whose third write (the superblock rewrite) fails. -/
def c9db : DB :=
  { st := { recs := [], rootAddr := none, faults := [false, false, true] },
    guard := true,
    tree := .loaded none "a" 1 ⟨some "1", none⟩ .nil .nil }

/-- Concrete run of `c9_commit_error_keeps_guard`: the value and node
records are appended, the superblock write fails, and the guard stays. -/
theorem c9_commit_error_keeps_guard_witness :
    (commit c9db).1 = false ∧ (commit c9db).2.guard = true :=
  ⟨by decide, (c9_commit_error_keeps_guard c9db rfl).1 (by decide)⟩

/-! #### C10: view refresh never clears a view -/

/-- C10.  `refresh_tree_view` replaces the root only when the superblock
holds an address (`if let Some(addr) = get_root_addr()`); on `none` the
handle keeps its previous root, so a non-empty view never reverts to the
empty view through a refresh. -/
theorem c10_refresh_preserves_view :
    ∀ db : DB,
      (getRootAddr db.st = none → refreshTreeView db = db) ∧
      (∀ a, getRootAddr db.st = some a → (refreshTreeView db).tree = .addrOnly a) ∧
      (db.tree ≠ .nil → (refreshTreeView db).tree ≠ .nil) := by
  intro db
  refine ⟨?_, ?_, ?_⟩
  · intro h
    unfold refreshTreeView
    rw [h]
  · intro a h
    unfold refreshTreeView
    rw [h]
  · intro h
    unfold refreshTreeView
    cases hg : getRootAddr db.st with
    | none => exact h
    | some a => simp

/-- Handle with a loaded in-memory view over a file whose superblock says
"no root". -/
def c10db : DB :=
  { st := { recs := [], rootAddr := none, faults := [] },
    guard := false,
    tree := .loaded none "a" 1 ⟨some "1", none⟩ .nil .nil }

/-- Concrete run of `c10_refresh_preserves_view`. -/
theorem c10_refresh_preserves_view_witness :
    refreshTreeView c10db = c10db ∧ (refreshTreeView c10db).tree ≠ .nil :=
  ⟨(c10_refresh_preserves_view c10db).1 rfl,
   (c10_refresh_preserves_view c10db).2.2 (by decide)⟩

/-! #### C4: in-transaction put / del write nothing -/

/-- C4.  While the facade holds the lock (`InTxn`), `put` and `del` only
rebuild the in-memory working tree (`_insert` / `_delete` touch the
storage exclusively through `Agent::get`, which reads); no byte of the
data region or superblock changes, hence what an independently opened
handle reads from the committed state is unchanged until commit. -/
theorem c4_intxn_no_write :
    ∀ (db : DB) (fuel : Nat) (k v : String) (db' : DB), db.guard = true →
      (put db fuel k v = some db' ∨ del db fuel k = some db') →
      db'.st = db.st ∧ db'.guard = true ∧
        ∀ fuel' k', getCommitted db'.st fuel' k' = getCommitted db.st fuel' k' := by
  intro db fuel k v db' hg hop
  have key : db'.st = db.st ∧ db'.guard = true := by
    rcases hop with h | h
    · unfold put at h
      rw [if_pos hg] at h
      rcases hi : insertAgent fuel k v db.tree db.st with _ | res
      · rw [hi] at h
        exact absurd h (by simp)
      · rw [hi] at h
        simp only [Option.some.injEq] at h
        subst h
        exact ⟨rfl, hg⟩
    · unfold del at h
      rw [if_pos hg] at h
      rcases hd : btDelete fuel k db.tree db.st with _ | t1
      · rw [hd] at h
        exact absurd h (by simp)
      · rw [hd] at h
        simp only [Option.some.injEq] at h
        subst h
        exact ⟨rfl, hg⟩
  exact ⟨key.1, key.2, fun fuel' k' => by rw [key.1]⟩

/-- `InTxn` facade over a committed one-record file. -/
def c4db : DB :=
  { st := { recs := [.val "0", .node ⟨"b", some 512, none, none, 1⟩],
            rootAddr := some 513, faults := [] },
    guard := true,
    tree := .addrOnly 513 }

/-- Concrete run of `c4_intxn_no_write`: an in-transaction `put`
leaves the storage exactly as it was, and an independent reader still
sees the committed value. -/
theorem c4_intxn_no_write_witness :
    (∃ db', put c4db 3 "a" "1" = some db' ∧
      db'.st = c4db.st ∧ db'.guard = true ∧
      getCommitted db'.st 3 "b" = some (some "0")) := by
  refine ⟨{ c4db with
    tree := .loaded none "b" 2
      ⟨none, some 512⟩
      (.loaded none "a" 1 ⟨some "1", none⟩ .nil .nil) .nil }, ?_, ?_⟩
  · decide
  · have h := c4_intxn_no_write c4db 3 "a" "1"
      ({ c4db with
        tree := .loaded none "b" 2
          ⟨none, some 512⟩
          (.loaded none "a" 1 ⟨some "1", none⟩ .nil .nil) .nil }) rfl
      (Or.inl (by decide))
    exact ⟨h.1, h.2.1, by rw [h.1]; decide⟩

/-! #### C6: store ordering and write-once addressing -/

/-- An optional address points at an already-written record when it lies
in the data region strictly below `bound` (addresses are `SUPERBLOCK +
index`, so `bound` = the current end of file covers exactly the records
written so far). -/
def optAddrValid (bound : Nat) : Option Nat → Bool
  | none => true
  | some a => decide (SUPERBLOCK ≤ a) && decide (a < bound)

/-- Every address field of a record points below `bound`. -/
def recordValid (bound : Nat) : Record → Bool
  | .val _ => true
  | .node hd =>
    optAddrValid bound hd.value_addr &&
      (optAddrValid bound hd.left_addr && optAddrValid bound hd.right_addr)

def recsWFAux : Nat → List Record → Bool
  | _, [] => true
  | i, r :: rest => recordValid (SUPERBLOCK + i) r && recsWFAux (i + 1) rest

/-- Every node record in the data region references only records written
strictly before it. -/
def recsWF (recs : List Record) : Bool := recsWFAux 0 recs

/-- All addresses reachable in an agent graph point below `bound`. -/
def agentValid (bound : Nat) : NodeAgent → Bool
  | .nil => true
  | .addrOnly a => optAddrValid bound (some a)
  | .loaded a _ _ v l r =>
    optAddrValid bound a &&
      (optAddrValid bound v.addr && (agentValid bound l && agentValid bound r))

theorem agentValid_loaded {b : Nat} {a : Option Nat} {k : String} {sz : Nat}
    {v : StringAgent} {l r : NodeAgent} :
    agentValid b (.loaded a k sz v l r) = true ↔
      optAddrValid b a = true ∧ optAddrValid b v.addr = true ∧
        agentValid b l = true ∧ agentValid b r = true := by
  simp [agentValid, Bool.and_eq_true, and_assoc]

theorem optAddrValid_mono {b b' : Nat} (hb : b ≤ b') :
    ∀ {o : Option Nat}, optAddrValid b o = true → optAddrValid b' o = true
  | none, _ => rfl
  | some a, h => by
    simp only [optAddrValid, Bool.and_eq_true, decide_eq_true_eq] at h ⊢
    omega

theorem agentValid_mono {b b' : Nat} (hb : b ≤ b') :
    ∀ {ag : NodeAgent}, agentValid b ag = true → agentValid b' ag = true
  | .nil, _ => rfl
  | .addrOnly a, h => optAddrValid_mono hb h
  | .loaded a k sz v l r, h => by
    obtain ⟨h1, h2, h3, h4⟩ := agentValid_loaded.mp h
    exact agentValid_loaded.mpr ⟨optAddrValid_mono hb h1, optAddrValid_mono hb h2,
      agentValid_mono hb h3, agentValid_mono hb h4⟩

theorem addrOf_valid {b : Nat} :
    ∀ {ag : NodeAgent}, agentValid b ag = true → optAddrValid b ag.addrOf = true
  | .nil, _ => rfl
  | .addrOnly _, h => h
  | .loaded _ _ _ _ _ _, h => (agentValid_loaded.mp h).1

theorem recsWFAux_append (r : Record) :
    ∀ (xs : List Record) (i : Nat),
      recsWFAux i (xs ++ [r])
        = (recsWFAux i xs && recordValid (SUPERBLOCK + i + xs.length) r)
  | [], i => by simp [recsWFAux]
  | x :: xs, i => by
    have ih := recsWFAux_append r xs (i + 1)
    have harith : SUPERBLOCK + (i + 1) + xs.length = SUPERBLOCK + i + (x :: xs).length := by
      simp only [List.length_cons]
      omega
    calc recsWFAux i ((x :: xs) ++ [r])
        = (recordValid (SUPERBLOCK + i) x && recsWFAux (i + 1) (xs ++ [r])) := rfl
      _ = (recordValid (SUPERBLOCK + i) x &&
            (recsWFAux (i + 1) xs && recordValid (SUPERBLOCK + (i + 1) + xs.length) r)) := by
          rw [ih]
      _ = ((recordValid (SUPERBLOCK + i) x && recsWFAux (i + 1) xs) &&
            recordValid (SUPERBLOCK + i + (x :: xs).length) r) := by
          rw [harith, Bool.and_assoc]
      _ = (recsWFAux i (x :: xs) && recordValid (SUPERBLOCK + i + (x :: xs).length) r) := rfl

theorem recsWF_append {recs : List Record} {r : Record}
    (hwf : recsWF recs = true) (hr : recordValid (SUPERBLOCK + recs.length) r = true) :
    recsWF (recs ++ [r]) = true := by
  unfold recsWF at hwf ⊢
  rw [recsWFAux_append]
  have harith : SUPERBLOCK + 0 + recs.length = SUPERBLOCK + recs.length := by omega
  rw [harith, hwf, hr]
  rfl

theorem writeRec_cases (r : Record) (st : StoreSt) :
    ((writeRec r st).1 = true ∧ (writeRec r st).2.recs = st.recs ++ [r] ∧
      (writeRec r st).2.rootAddr = st.rootAddr) ∨
    ((writeRec r st).1 = false ∧ (writeRec r st).2.recs = st.recs ∧
      (writeRec r st).2.rootAddr = st.rootAddr) := by
  rcases st with ⟨recs, root, faults⟩
  cases faults with
  | nil => exact Or.inl ⟨rfl, rfl, rfl⟩
  | cons b rest =>
    cases b
    · exact Or.inl ⟨rfl, rfl, rfl⟩
    · exact Or.inr ⟨rfl, rfl, rfl⟩

theorem writeAddr_of_append {st st' : StoreSt} {Δ : List Record}
    (h : st'.recs = st.recs ++ Δ) : st.writeAddr ≤ st'.writeAddr := by
  simp only [StoreSt.writeAddr, h, List.length_append]
  omega

/-- `StringAgent::store` invariant: storage only grows, the superblock is
untouched, well-formedness is preserved, and on success the agent's
address is assigned below the new end of file. -/
theorem storeV_spec (va : StringAgent) (st : StoreSt)
    (hwf : recsWF st.recs = true) :
    (∃ Δ, (va.store st).2.2.recs = st.recs ++ Δ) ∧
    (va.store st).2.2.rootAddr = st.rootAddr ∧
    recsWF (va.store st).2.2.recs = true ∧
    ((va.store st).1 = true → optAddrValid st.writeAddr va.addr = true →
      optAddrValid (va.store st).2.2.writeAddr (va.store st).2.1.addr = true) := by
  rcases va with ⟨inner, addr⟩
  cases inner with
  | none =>
    refine ⟨⟨[], by simp [StringAgent.store]⟩, by simp [StringAgent.store], ?_, ?_⟩
    · simpa [StringAgent.store] using hwf
    · intro _ hv
      simpa [StringAgent.store] using hv
  | some s =>
    cases addr with
    | some a =>
      refine ⟨⟨[], by simp [StringAgent.store]⟩, by simp [StringAgent.store], ?_, ?_⟩
      · simpa [StringAgent.store] using hwf
      · intro _ hv
        simpa [StringAgent.store] using hv
    | none =>
      have hred : StringAgent.store ⟨some s, none⟩ st
          = ((writeRec (.val s) st).1, ⟨some s, some st.writeAddr⟩, (writeRec (.val s) st).2) :=
        rfl
      rcases writeRec_cases (.val s) st with ⟨hok, hrecs, hroot⟩ | ⟨hok, hrecs, hroot⟩
      · refine ⟨⟨[.val s], by rw [hred]; exact hrecs⟩, by rw [hred]; exact hroot, ?_, ?_⟩
        · rw [hred]
          show recsWF (writeRec (.val s) st).2.recs = true
          rw [hrecs]
          exact recsWF_append hwf rfl
        · intro _ _
          rw [hred]
          show optAddrValid (writeRec (.val s) st).2.writeAddr (some st.writeAddr) = true
          have hwa : (writeRec (.val s) st).2.writeAddr = st.writeAddr + 1 := by
            simp only [StoreSt.writeAddr, hrecs, List.length_append, List.length_cons,
              List.length_nil]
            omega
          rw [hwa]
          simp only [optAddrValid, Bool.and_eq_true, decide_eq_true_eq, StoreSt.writeAddr]
          constructor
          · omega
          · omega
      · refine ⟨⟨[], by rw [hred]; simpa using hrecs⟩, by rw [hred]; exact hroot, ?_, ?_⟩
        · rw [hred]
          show recsWF (writeRec (.val s) st).2.recs = true
          rw [hrecs]
          exact hwf
        · intro hc
          rw [hred] at hc
          exact absurd (hok ▸ hc) (by simp)

/-- `TreeNodeAgent::store` invariant: the data region only grows, the
superblock is untouched, every written node record references records
written strictly before it, and on success the stored agent is addressed
below the new end of file. -/
theorem store_spec :
    ∀ (ag : NodeAgent) (st : StoreSt),
      recsWF st.recs = true → agentValid st.writeAddr ag = true →
      (∃ Δ, (ag.store st).2.2.recs = st.recs ++ Δ) ∧
      (ag.store st).2.2.rootAddr = st.rootAddr ∧
      recsWF (ag.store st).2.2.recs = true ∧
      ((ag.store st).1 = true →
        agentValid (ag.store st).2.2.writeAddr (ag.store st).2.1 = true ∧
        (ag ≠ .nil → ((ag.store st).2.1.addrOf).isSome = true))
  | .nil, st, hwf, hv =>
    ⟨⟨[], by simp [NodeAgent.store]⟩, rfl, hwf, fun _ => ⟨hv, fun h => absurd rfl h⟩⟩
  | .addrOnly a, st, hwf, hv =>
    ⟨⟨[], by simp [NodeAgent.store]⟩, rfl, hwf, fun _ => ⟨hv, fun _ => rfl⟩⟩
  | .loaded (some a) k sz v l r, st, hwf, hv =>
    ⟨⟨[], by simp [NodeAgent.store]⟩, rfl, hwf, fun _ => ⟨hv, fun _ => rfl⟩⟩
  | .loaded none k sz v l r, st, hwf, hv => by
    obtain ⟨hva, hvv, hvl, hvr⟩ := agentValid_loaded.mp hv
    obtain ⟨⟨Δv, hrecs1⟩, hroot1, hwf1, hval1⟩ := storeV_spec v st hwf
    simp only [NodeAgent.store]
    cases hb1 : (StringAgent.store v st).1 with
    | false =>
      rw [if_pos rfl]
      exact ⟨⟨Δv, hrecs1⟩, hroot1, hwf1, fun hc => absurd hc (by simp)⟩
    | true =>
      rw [if_neg (by decide)]
      have hw1 : st.writeAddr ≤ (StringAgent.store v st).2.2.writeAddr :=
        writeAddr_of_append hrecs1
      obtain ⟨⟨Δl, hrecs2⟩, hroot2, hwf2, hval2⟩ :=
        store_spec l (StringAgent.store v st).2.2 hwf1 (agentValid_mono hw1 hvl)
      cases hb2 : (NodeAgent.store l (StringAgent.store v st).2.2).1 with
      | false =>
        rw [if_pos rfl]
        exact ⟨⟨Δv ++ Δl, by rw [hrecs2, hrecs1, List.append_assoc]⟩,
          hroot2.trans hroot1, hwf2, fun hc => absurd hc (by simp)⟩
      | true =>
        rw [if_neg (by decide)]
        have hw2 : (StringAgent.store v st).2.2.writeAddr
            ≤ (NodeAgent.store l (StringAgent.store v st).2.2).2.2.writeAddr :=
          writeAddr_of_append hrecs2
        obtain ⟨⟨Δr, hrecs3⟩, hroot3, hwf3, hval3⟩ :=
          store_spec r (NodeAgent.store l (StringAgent.store v st).2.2).2.2 hwf2
            (agentValid_mono (hw1.trans hw2) hvr)
        cases hb3 : (NodeAgent.store r
            (NodeAgent.store l (StringAgent.store v st).2.2).2.2).1 with
        | false =>
          rw [if_pos rfl]
          exact ⟨⟨Δv ++ (Δl ++ Δr), by
              rw [hrecs3, hrecs2, hrecs1, List.append_assoc, List.append_assoc]⟩,
            (hroot3.trans hroot2).trans hroot1, hwf3, fun hc => absurd hc (by simp)⟩
        | true =>
          rw [if_neg (by decide)]
          have hw3 : (NodeAgent.store l (StringAgent.store v st).2.2).2.2.writeAddr
              ≤ (NodeAgent.store r
                  (NodeAgent.store l (StringAgent.store v st).2.2).2.2).2.2.writeAddr :=
            writeAddr_of_append hrecs3
          have hv1 : optAddrValid (NodeAgent.store r
              (NodeAgent.store l (StringAgent.store v st).2.2).2.2).2.2.writeAddr
              (StringAgent.store v st).2.1.addr = true :=
            optAddrValid_mono (hw2.trans hw3) (hval1 hb1 hvv)
          have hl1v : agentValid (NodeAgent.store r
              (NodeAgent.store l (StringAgent.store v st).2.2).2.2).2.2.writeAddr
              (NodeAgent.store l (StringAgent.store v st).2.2).2.1 = true :=
            agentValid_mono hw3 (hval2 hb2).1
          have hr1v : agentValid (NodeAgent.store r
              (NodeAgent.store l (StringAgent.store v st).2.2).2.2).2.2.writeAddr
              (NodeAgent.store r
                (NodeAgent.store l (StringAgent.store v st).2.2).2.2).2.1 = true :=
            (hval3 hb3).1
          have hrecval : recordValid (SUPERBLOCK + (NodeAgent.store r
              (NodeAgent.store l (StringAgent.store v st).2.2).2.2).2.2.recs.length)
              (.node ⟨k, (StringAgent.store v st).2.1.addr,
                (NodeAgent.store l (StringAgent.store v st).2.2).2.1.addrOf,
                (NodeAgent.store r
                  (NodeAgent.store l (StringAgent.store v st).2.2).2.2).2.1.addrOf, sz⟩)
              = true := by
            simp only [recordValid, Bool.and_eq_true]
            exact ⟨hv1, addrOf_valid hl1v, addrOf_valid hr1v⟩
          rcases writeRec_cases (.node ⟨k, (StringAgent.store v st).2.1.addr,
              (NodeAgent.store l (StringAgent.store v st).2.2).2.1.addrOf,
              (NodeAgent.store r
                (NodeAgent.store l (StringAgent.store v st).2.2).2.2).2.1.addrOf, sz⟩)
              (NodeAgent.store r
                (NodeAgent.store l (StringAgent.store v st).2.2).2.2).2.2 with
            ⟨hok, hrecs4, hroot4⟩ | ⟨hok, hrecs4, hroot4⟩
          · refine ⟨⟨Δv ++ (Δl ++ (Δr ++ [.node ⟨k, (StringAgent.store v st).2.1.addr,
                (NodeAgent.store l (StringAgent.store v st).2.2).2.1.addrOf,
                (NodeAgent.store r
                  (NodeAgent.store l (StringAgent.store v st).2.2).2.2).2.1.addrOf, sz⟩])), ?_⟩,
              ?_, ?_, ?_⟩
            · rw [hrecs4, hrecs3, hrecs2, hrecs1]
              simp [List.append_assoc]
            · rw [hroot4, hroot3, hroot2, hroot1]
            · rw [hrecs4]
              exact recsWF_append hwf3 hrecval
            · intro _
              have hwa4 : (writeRec (.node ⟨k, (StringAgent.store v st).2.1.addr,
                  (NodeAgent.store l (StringAgent.store v st).2.2).2.1.addrOf,
                  (NodeAgent.store r
                    (NodeAgent.store l (StringAgent.store v st).2.2).2.2).2.1.addrOf, sz⟩)
                  (NodeAgent.store r
                    (NodeAgent.store l (StringAgent.store v st).2.2).2.2).2.2).2.writeAddr
                  = (NodeAgent.store r
                      (NodeAgent.store l (StringAgent.store v st).2.2).2.2).2.2.writeAddr
                    + 1 := by
                simp only [StoreSt.writeAddr, hrecs4, List.length_append, List.length_cons,
                  List.length_nil]
                omega
              refine ⟨?_, fun _ => rfl⟩
              rw [hwa4]
              refine agentValid_loaded.mpr ⟨?_,
                optAddrValid_mono (Nat.le_succ _) hv1,
                agentValid_mono (Nat.le_succ _) hl1v,
                agentValid_mono (Nat.le_succ _) hr1v⟩
              simp only [optAddrValid, Bool.and_eq_true, decide_eq_true_eq, StoreSt.writeAddr]
              omega
          · refine ⟨⟨Δv ++ (Δl ++ Δr), ?_⟩, ?_, ?_, ?_⟩
            · rw [hrecs4, hrecs3, hrecs2, hrecs1]
              simp [List.append_assoc]
            · rw [hroot4, hroot3, hroot2, hroot1]
            · rw [hrecs4]
              exact hwf3
            · intro hc
              exact absurd (hok ▸ hc) (by simp)

/-- C6.  Write-once and store ordering: `store` on an addressed agent (or
on an absent child) is a no-op that leaves the storage untouched; a store
never removes or overwrites existing records and keeps every node record
referencing only records written strictly before it; and a successful
store of an unaddressed loaded node stores the value agent, then the left
child, then the right child, takes the then-current end of file as its
own address (the node record is the last record appended, at address
end-of-file − 1), and the appended `TreeNodeHD` carries exactly the
now-known value and child addresses. -/
theorem c6_store_write_once :
    (∀ (ag : NodeAgent) (st : StoreSt), (NodeAgent.addrOf ag).isSome = true →
        ag.store st = (true, ag, st)) ∧
    (∀ (va : StringAgent) (st : StoreSt), va.addr.isSome = true →
        va.store st = (true, va, st)) ∧
    (∀ (ag : NodeAgent) (st : StoreSt),
        recsWF st.recs = true → agentValid st.writeAddr ag = true →
        (∃ Δ, (ag.store st).2.2.recs = st.recs ++ Δ) ∧
        recsWF (ag.store st).2.2.recs = true) ∧
    (∀ (k : String) (sz : Nat) (v : StringAgent) (l r : NodeAgent) (st : StoreSt),
        (NodeAgent.store (.loaded none k sz v l r) st).1 = true →
        (NodeAgent.store (.loaded none k sz v l r) st).2.1
            = .loaded (some ((NodeAgent.store (.loaded none k sz v l r) st).2.2.writeAddr - 1))
                k sz (StringAgent.store v st).2.1
                (NodeAgent.store l (StringAgent.store v st).2.2).2.1
                (NodeAgent.store r
                  (NodeAgent.store l (StringAgent.store v st).2.2).2.2).2.1 ∧
        (NodeAgent.store (.loaded none k sz v l r) st).2.2.recs.getLast?
            = some (.node ⟨k, (StringAgent.store v st).2.1.addr,
                (NodeAgent.store l (StringAgent.store v st).2.2).2.1.addrOf,
                (NodeAgent.store r
                  (NodeAgent.store l (StringAgent.store v st).2.2).2.2).2.1.addrOf, sz⟩)) := by
  refine ⟨?_, ?_, ?_, ?_⟩
  · intro ag st h
    cases ag with
    | nil => simp [NodeAgent.addrOf] at h
    | addrOnly a => rfl
    | loaded a k sz v l r =>
      cases a with
      | none => simp [NodeAgent.addrOf] at h
      | some x => rfl
  · intro va st h
    rcases va with ⟨inner, addr⟩
    cases addr with
    | none => simp at h
    | some a => cases inner <;> rfl
  · intro ag st hwf hv
    exact ⟨(store_spec ag st hwf hv).1, (store_spec ag st hwf hv).2.2.1⟩
  · intro k sz v l r st h
    simp only [NodeAgent.store] at h ⊢
    cases hb1 : (StringAgent.store v st).1 with
    | false =>
      rw [if_pos hb1] at h
      exact absurd h (by simp)
    | true =>
      rw [if_neg (by simp [hb1])] at h
      rw [if_neg (by decide)]
      cases hb2 : (NodeAgent.store l (StringAgent.store v st).2.2).1 with
      | false =>
        rw [if_pos hb2] at h
        exact absurd h (by simp)
      | true =>
        rw [if_neg (by simp [hb2])] at h
        rw [if_neg (by decide)]
        cases hb3 : (NodeAgent.store r
            (NodeAgent.store l (StringAgent.store v st).2.2).2.2).1 with
        | false =>
          rw [if_pos hb3] at h
          exact absurd h (by simp)
        | true =>
          rw [if_neg (by simp [hb3])] at h
          rw [if_neg (by decide)]
          rcases writeRec_cases (.node ⟨k, (StringAgent.store v st).2.1.addr,
              (NodeAgent.store l (StringAgent.store v st).2.2).2.1.addrOf,
              (NodeAgent.store r
                (NodeAgent.store l (StringAgent.store v st).2.2).2.2).2.1.addrOf, sz⟩)
              (NodeAgent.store r
                (NodeAgent.store l (StringAgent.store v st).2.2).2.2).2.2 with
            ⟨hok, hrecs4, hroot4⟩ | ⟨hok, hrecs4, hroot4⟩
          · constructor
            · have hwa : (writeRec (.node ⟨k, (StringAgent.store v st).2.1.addr,
                  (NodeAgent.store l (StringAgent.store v st).2.2).2.1.addrOf,
                  (NodeAgent.store r
                    (NodeAgent.store l (StringAgent.store v st).2.2).2.2).2.1.addrOf, sz⟩)
                  (NodeAgent.store r
                    (NodeAgent.store l (StringAgent.store v st).2.2).2.2).2.2).2.writeAddr
                  = (NodeAgent.store r
                      (NodeAgent.store l (StringAgent.store v st).2.2).2.2).2.2.writeAddr
                    + 1 := by
                simp only [StoreSt.writeAddr, hrecs4, List.length_append, List.length_cons,
                  List.length_nil]
                omega
              show NodeAgent.loaded _ k sz _ _ _ = _
              rw [hwa]
              simp
            · show (writeRec _ _).2.recs.getLast? = _
              rw [hrecs4]
              exact List.getLast?_concat _
          · exact absurd h (by simp [hok])

/-- A freshly inserted one-node tree and an empty storage. -/
def c6ag : NodeAgent := .loaded none "a" 1 ⟨some "1", none⟩ .nil .nil

def c6st : StoreSt := { recs := [], rootAddr := none, faults := [] }

/-- Concrete run of `c6_store_write_once`: a no-op on an addressed agent,
and a full store of a fresh node over an empty file. -/
theorem c6_store_write_once_witness :
    NodeAgent.store (.addrOnly 600) c6st = (true, .addrOnly 600, c6st) ∧
    (∃ Δ, (NodeAgent.store c6ag c6st).2.2.recs = c6st.recs ++ Δ) ∧
    recsWF (NodeAgent.store c6ag c6st).2.2.recs = true ∧
    (NodeAgent.store c6ag c6st).2.1
      = .loaded (some ((NodeAgent.store c6ag c6st).2.2.writeAddr - 1)) "a" 1
          (StringAgent.store ⟨some "1", none⟩ c6st).2.1
          (NodeAgent.store .nil (StringAgent.store ⟨some "1", none⟩ c6st).2.2).2.1
          (NodeAgent.store .nil
            (NodeAgent.store .nil (StringAgent.store ⟨some "1", none⟩ c6st).2.2).2.2).2.1 := by
  refine ⟨c6_store_write_once.1 (.addrOnly 600) c6st (by decide), ?_, ?_, ?_⟩
  · exact (c6_store_write_once.2.2.1 c6ag c6st (by decide) (by decide)).1
  · exact (c6_store_write_once.2.2.1 c6ag c6st (by decide) (by decide)).2
  · exact (c6_store_write_once.2.2.2 "a" 1 ⟨some "1", none⟩ .nil .nil c6st (by decide)).1

/-! ### Byte-level superblock model (`FileStorage` + bincode)

`ensure_superblock` / `commit_root_addr` / `get_root_addr` over the raw
byte content of the backing file, with the bincode legacy encoding of
`Meta { root_addr: Option<u64> }` (the external `bincode` crate used by
`SerdeBincode`): an `Option` is a one-byte tag, `0` for `None` and `1`
followed by the payload; a `u64` is eight little-endian bytes (fixint). -/

/-- Eight little-endian bytes of a `u64` (bincode fixint encoding); each
byte is an explicit `/ 2^(8i) % 256`. -/
def u64le (a : Nat) : List Nat :=
  [a % 256, a / 2 ^ 8 % 256, a / 2 ^ 16 % 256, a / 2 ^ 24 % 256,
   a / 2 ^ 32 % 256, a / 2 ^ 40 % 256, a / 2 ^ 48 % 256, a / 2 ^ 56 % 256]

/-- Bincode encoding of `Meta { root_addr: Option<u64> }`. -/
def encodeMeta : Option Nat → List Nat
  | none => [0]
  | some a => 1 :: u64le a

/-- Overwrite `data` into `file` starting at byte `pos` (a seek followed
by a plain write on the underlying `File`, as `commit_root_addr` does —
it writes to `self.file` directly, bypassing the append-only wrapper). -/
def writeAt (pos : Nat) (data file : List Nat) : List Nat :=
  file.take pos ++ data ++ file.drop (pos + data.length)

/-- The `Write` impl of `FileStorage`: seek to end, then write. -/
def fsAppend (file data : List Nat) : List Nat := file ++ data

/-- `FileStorage::commit_root_addr` at the byte level (`addr == 0`
encodes "root = none"). -/
def commitRootAddrBytes (addr : Nat) (file : List Nat) : List Nat :=
  writeAt 0 (encodeMeta (if addr = 0 then none else some addr)) file

/-- `FileStorage::ensure_superblock`: seek to end; if the file is shorter
than `SUPERBLOCK`, write `SUPERBLOCK` zero bytes (through the appending
`Write` impl) and commit "root = none". -/
def ensureSuperblock (file : List Nat) : List Nat :=
  if file.length < SUPERBLOCK then
    commitRootAddrBytes 0 (fsAppend file (List.replicate SUPERBLOCK 0))
  else file

/-- Little-endian interpretation of a byte list. -/
def fromLE8 (bytes : List Nat) : Nat := bytes.foldr (fun b acc => b + 256 * acc) 0

/-- `FileStorage::get_root_addr`: seek to 0 and decode an
`Option<u64>`; an unknown tag or truncated payload is a decode error
(outer `none`). -/
def readRootAddrBytes (file : List Nat) : Option (Option Nat) :=
  match file with
  | 0 :: _ => some none
  | 1 :: rest => if 8 ≤ rest.length then some (some (fromLE8 (rest.take 8))) else none
  | _ => none

/-! #### C7: ensure_superblock -/

set_option maxRecDepth 4096 in
/-- C7 as stated is false: the zero-fill goes through the append-only
`Write` impl, which always appends all `SUPERBLOCK` bytes after the
existing content; a one-byte file therefore grows to `SUPERBLOCK + 1`
bytes, not to exactly `SUPERBLOCK`. -/
theorem c7_short_file_not_exact_counterexample :
    (ensureSuperblock [0]).length = SUPERBLOCK + 1 ∧
    (ensureSuperblock [0]).length ≠ SUPERBLOCK := by
  constructor
  · decide
  · decide

/-- C7 amended.  For a file shorter than `SUPERBLOCK`, `ensure_superblock`
appends `SUPERBLOCK` zero bytes — so the file ends up at its initial
length plus `SUPERBLOCK`, which is exactly `SUPERBLOCK` only for a
freshly created (empty) file — and commits a superblock decoding to
`root = none`. -/
theorem c7_ensure_superblock :
    ∀ file : List Nat, file.length < SUPERBLOCK →
      (ensureSuperblock file).length = file.length + SUPERBLOCK ∧
      readRootAddrBytes (ensureSuperblock file) = some none ∧
      (file = [] → (ensureSuperblock file).length = SUPERBLOCK) := by
  intro file h
  have hlen : (file ++ List.replicate SUPERBLOCK 0).length = file.length + SUPERBLOCK := by
    simp
  have hform : ensureSuperblock file = 0 :: (file ++ List.replicate SUPERBLOCK 0).drop 1 := by
    unfold ensureSuperblock
    rw [if_pos h]
    unfold commitRootAddrBytes fsAppend writeAt
    simp [encodeMeta]
  have hlen1 : (ensureSuperblock file).length = file.length + SUPERBLOCK := by
    rw [hform]
    simp only [List.length_cons, List.length_drop, hlen]
    have hpos : 0 < SUPERBLOCK := by norm_num [SUPERBLOCK]
    omega
  refine ⟨hlen1, ?_, ?_⟩
  · rw [hform]
    rfl
  · intro hf
    rw [hlen1, hf]
    rfl

/-- Concrete run of `c7_ensure_superblock` on a freshly created file. -/
theorem c7_ensure_superblock_witness :
    (ensureSuperblock []).length = SUPERBLOCK ∧
    readRootAddrBytes (ensureSuperblock []) = some none :=
  ⟨(c7_ensure_superblock [] (by decide)).2.2 rfl, (c7_ensure_superblock [] (by decide)).2.1⟩

/-! #### C8: superblock codec size -/

/-- C8 as stated is false: the bincode encoding of `Meta` is not
fixed-size — `root_addr = none` encodes to one byte while a present
address encodes to nine. -/
theorem c8_not_fixed_size_counterexample :
    (encodeMeta none).length = 1 ∧ (encodeMeta (some 42)).length = 9 ∧
    (encodeMeta none).length ≠ (encodeMeta (some 42)).length := by
  refine ⟨rfl, rfl, by decide⟩

/-- C8 amended.  The superblock payload encodes to one byte (`none`) or
nine bytes (`some`), in both cases at most `SUPERBLOCK` bytes, so the
rewrite never overruns the reserved superblock region. -/
theorem c8_encoding_bounded :
    ∀ p : Option Nat,
      (encodeMeta p).length = (match p with | none => 1 | some _ => 9) ∧
      (encodeMeta p).length ≤ SUPERBLOCK := by
  intro p
  cases p <;> simp [encodeMeta, u64le, SUPERBLOCK]

end Dbdb
